import Mathlib

/-!
Verification of the contact-directory program in src/main.py.

The development shallowly embeds the program's core (validated fields,
contact records, the address book and its upcoming-birthday query) as
executable Lean definitions and proves the specification claims about
them.  Python's datetime.date is modelled by a proleptic-Gregorian
calendar on Nat (year, month, day), with the same validity range
(years 1..9999) and the same weekday convention (Monday = 0).  Machine
strings are modelled by Lean String / List Char at the ASCII level,
which covers every value the claims quantify over.
-/

/-- Python datetime.date: a (year, month, day) triple.  Validity is
enforced at construction by mkDate, mirroring the date() constructor. -/
structure PyDate where
  year : Nat
  month : Nat
  day : Nat
deriving DecidableEq, Repr

/-- Gregorian leap-year rule, as used by datetime.date. -/
def isLeap (y : Nat) : Bool :=
  y % 4 == 0 && (y % 100 != 0 || y % 400 == 0)

/-- Length of a month in a given year (datetime's days_in_month). -/
def daysInMonth (y m : Nat) : Nat :=
  if m = 2 then (if isLeap y then 29 else 28)
  else if m = 4 ∨ m = 6 ∨ m = 9 ∨ m = 11 then 30
  else 31

/-- Days in the months strictly before month m of year y. -/
def daysBeforeMonth (y m : Nat) : Nat :=
  (List.range (m - 1)).foldl (fun a i => a + daysInMonth y (i + 1)) 0

/-- Proleptic-Gregorian ordinal of a date, as in date.toordinal():
0001-01-01 has ordinal 1. -/
def rataDie (dt : PyDate) : Nat :=
  365 * (dt.year - 1) + (dt.year - 1) / 4 - (dt.year - 1) / 100 + (dt.year - 1) / 400
    + daysBeforeMonth dt.year dt.month + dt.day

/-- date.weekday(): Monday = 0 .. Sunday = 6.  0001-01-01 is a Monday. -/
def weekday (dt : PyDate) : Nat :=
  (rataDie dt + 6) % 7

/-- (a - b).days for Python dates: difference of ordinals, in days. -/
def dateDiff (a b : PyDate) : Int :=
  (rataDie a : Int) - (rataDie b : Int)

/-- Python date comparison a < b (lexicographic on year, month, day;
equivalent to ordinal comparison on valid dates). -/
def PyDate.lt (a b : PyDate) : Bool :=
  a.year < b.year ||
    (a.year == b.year &&
      (a.month < b.month || (a.month == b.month && a.day < b.day)))

/-- Calendar successor of a date. -/
def nextDay (dt : PyDate) : PyDate :=
  if dt.day < daysInMonth dt.year dt.month then ⟨dt.year, dt.month, dt.day + 1⟩
  else if dt.month < 12 then ⟨dt.year, dt.month + 1, 1⟩
  else ⟨dt.year + 1, 1, 1⟩

/-- date + timedelta(days = n), ignoring the range check. -/
def addDays (dt : PyDate) : Nat → PyDate
  | 0 => dt
  | n + 1 => nextDay (addDays dt n)

/-- date + timedelta(days = n) with Python's range check: the result
must stay within year 9999, else OverflowError. -/
def addDaysChecked (dt : PyDate) (n : Nat) : Except String PyDate :=
  let r := addDays dt n
  if r.year ≤ 9999 then .ok r else .error "date value out of range"

/-- The datetime.date constructor: checks 1 ≤ year ≤ 9999,
1 ≤ month ≤ 12, 1 ≤ day ≤ days-in-month, raising ValueError otherwise
(error strings as in CPython). -/
def mkDate (y m d : Nat) : Except String PyDate :=
  if ¬ (1 ≤ y ∧ y ≤ 9999) then .error "year is out of range"
  else if ¬ (1 ≤ m ∧ m ≤ 12) then .error "month must be in 1..12"
  else if ¬ (1 ≤ d ∧ d ≤ daysInMonth y m) then .error "day is out of range for month"
  else .ok ⟨y, m, d⟩

/-- The decimal digit character for n < 10. -/
def digitChar (n : Nat) : Char :=
  Char.ofNat (48 + n)

/-- A number rendered as exactly two decimal digits (zero-padded), for
values below 100: the %d and %m strftime fields. -/
def pad2 (n : Nat) : List Char :=
  [digitChar (n / 10), digitChar (n % 10)]

/-- A number rendered as exactly four decimal digits (zero-padded), for
values below 10000: the %Y strftime field / isoformat year. -/
def pad4 (n : Nat) : List Char :=
  [digitChar (n / 1000), digitChar (n / 100 % 10), digitChar (n / 10 % 10), digitChar (n % 10)]

/-- str(date) = date.isoformat() = strftime("%Y-%m-%d"): zero-padded
YYYY-MM-DD. -/
def isoStr (dt : PyDate) : String :=
  ⟨pad4 dt.year ++ '-' :: pad2 dt.month ++ '-' :: pad2 dt.day⟩

/-- strftime("%Y-%m-%d") as used for congratulation_date in
get_upcoming_birthdays; identical to the isoformat rendering. -/
def fmtYMD (dt : PyDate) : String :=
  isoStr dt

/-- strftime(DATE_STR_PATTERN) with DATE_STR_PATTERN = "%d.%m.%Y":
zero-padded DD.MM.YYYY, used by Record.__str__ and show_birthday. -/
def fmtDMY (dt : PyDate) : String :=
  ⟨pad2 dt.day ++ '.' :: pad2 dt.month ++ '.' :: pad4 dt.year⟩

/-- Field.__str__ for a string-valued field (Name, Phone): empty string
when the value is None, the stored string otherwise. -/
def fieldStr : Option String → String
  | none => ""
  | some v => v

/-- Field.__str__ for the Birthday field: str(None) gives "" and
str(value) on a stored datetime.date gives its ISO form. -/
def birthdayFieldStr : Option PyDate → String
  | none => ""
  | some dt => isoStr dt

/-- The Phone value setter: accepts exactly the strings matched by the
regex ^\d{10}$ (ten ASCII decimal digits), raising ValueError otherwise.
Returns the stored value. -/
def Phone.validate (s : String) : Except String String :=
  if s.data.length == 10 && s.data.all (fun c => c.isDigit)
  then .ok s
  else .error "The telephone number must contain exactly 10 digits"

/-- Longest run of decimal-digit characters at the front of a list,
with the rest: the scanner step for the strptime field regexes. -/
def takeDigits : List Char → List Char × List Char
  | [] => ([], [])
  | c :: cs =>
    if c.isDigit then
      let p := takeDigits cs
      (c :: p.1, p.2)
    else ([], c :: cs)

/-- Numeric value of a digit string (most significant first). -/
def natVal (cs : List Char) : Nat :=
  cs.foldl (fun a c => 10 * a + (c.toNat - 48)) 0

/-- The strptime("%d.%m.%Y") pattern match: a day field of one or two
digits with value 1..31, a dot, a month field of one or two digits with
value 1..12, a dot, and a year field of exactly four digits, consuming
the whole input (CPython's _strptime field regexes for %d, %m, %Y).
Returns (day, month, year) on a match. -/
def flexMatch (s : String) : Option (Nat × Nat × Nat) :=
  let p1 := takeDigits s.data
  match p1.2 with
  | '.' :: r1 =>
    let p2 := takeDigits r1
    match p2.2 with
    | '.' :: r2 =>
      let p3 := takeDigits r2
      if p3.2 = [] ∧
         1 ≤ p1.1.length ∧ p1.1.length ≤ 2 ∧ 1 ≤ natVal p1.1 ∧ natVal p1.1 ≤ 31 ∧
         1 ≤ p2.1.length ∧ p2.1.length ≤ 2 ∧ 1 ≤ natVal p2.1 ∧ natVal p2.1 ≤ 12 ∧
         p3.1.length = 4
      then some (natVal p1.1, natVal p2.1, natVal p3.1)
      else none
    | _ => none
  | _ => none

/-- The Birthday value setter: datetime.strptime(value, "%d.%m.%Y"),
re-raised as ValueError("Invalid date format. Use DD.MM.YYYY") when the
pattern does not match or the date is not constructible. -/
def Birthday.parse (s : String) : Except String PyDate :=
  match flexMatch s with
  | some (d, m, y) =>
    match mkDate y m d with
    | .ok dt => .ok dt
    | .error _ => .error "Invalid date format. Use DD.MM.YYYY"
  | none => .error "Invalid date format. Use DD.MM.YYYY"

/-- The strict textual pattern DD.MM.YYYY named by the specification:
exactly two day digits, a dot, two month digits, a dot, four year
digits.  (Claim-side definition, for comparison with what the code
accepts.) -/
def strictDMY (s : String) : Bool :=
  match s.data with
  | [d1, d2, '.', m1, m2, '.', y1, y2, y3, y4] =>
    d1.isDigit && d2.isDigit && m1.isDigit && m2.isDigit &&
      y1.isDigit && y2.isDigit && y3.isDigit && y4.isDigit
  | _ => false

/-- Contact record: a name (held by a Name field, which adds no
validation over Field), an ordered list of phone values (each one was
accepted by the Phone setter), and the optional stored birthday date.
A birthday of none covers both an absent Birthday object and a Birthday
holding None, which the code treats alike. -/
structure Record where
  name : String
  phones : List String
  birthday : Option PyDate
deriving DecidableEq, Repr

/-- Record.__init__: stores Name(name) — no validation of the name —
with no phones and no birthday. -/
def Record.make (name : String) : Record :=
  ⟨name, [], none⟩

/-- Record.find_phone: first stored phone whose value equals the given
string, if any. -/
def Record.find_phone (r : Record) (v : String) : Option String :=
  r.phones.find? (fun p => p == v)

/-- Record.add_phone: validates and appends. -/
def Record.add_phone (r : Record) (v : String) : Except String Record :=
  match Phone.validate v with
  | .ok p => .ok ⟨r.name, r.phones ++ [p], r.birthday⟩
  | .error e => .error e

/-- Record.edit_phone: locates the first phone equal to old_value (the
object find_phone returns) and assigns its value setter new_value,
which validates; returns False and leaves the record unchanged when no
phone matches. -/
def Record.edit_phone (r : Record) (old new : String) : Except String (Bool × Record) :=
  match r.phones.findIdx? (fun p => p == old) with
  | none => .ok (false, r)
  | some i =>
    match Phone.validate new with
    | .ok v => .ok (true, ⟨r.name, r.phones.set i v, r.birthday⟩)
    | .error e => .error e

/-- Record.add_birthday: parses and assigns the birthday. -/
def Record.add_birthday (r : Record) (v : String) : Except String Record :=
  match Birthday.parse v with
  | .ok dt => .ok ⟨r.name, r.phones, some dt⟩
  | .error e => .error e

/-- The whitespace characters str.strip() removes (ASCII range). -/
def pySpace (c : Char) : Bool :=
  c == ' ' || c == '\t' || c == '\n' || c == '\x0b' || c == '\x0c' || c == '\r'

/-- str.lower() on one character (ASCII range). -/
def lowerChar (c : Char) : Char :=
  if 65 ≤ c.toNat ∧ c.toNat ≤ 90 then Char.ofNat (c.toNat + 32) else c

/-- Remove trailing characters satisfying p. -/
def dropTrail (p : Char → Bool) (l : List Char) : List Char :=
  (List.dropWhile p l.reverse).reverse

/-- str.strip(): leading then trailing whitespace removed. -/
def pyStrip (l : List Char) : List Char :=
  dropTrail pySpace (List.dropWhile pySpace l)

/-- str.lower(). -/
def pyLower (l : List Char) : List Char :=
  l.map lowerChar

/-- name.strip().lower(): the normalization applied before every
AddressBook map access. -/
def pyNormalize (s : String) : String :=
  ⟨pyLower (pyStrip s.data)⟩

/-- The AddressBook's underlying dict (UserDict.data), modelled as an
association list in insertion order with at most one entry per key. -/
def Book : Type := List (String × Record)

/-- dict assignment self.data[key] = record: replaces in place the
entry with that key if present, else appends. -/
def dictInsert (k : String) (v : Record) : List (String × Record) → List (String × Record)
  | [] => [(k, v)]
  | (k', v') :: rest => if k' = k then (k, v) :: rest else (k', v') :: dictInsert k v rest

/-- dict lookup self.data.get(key). -/
def dictGet (k : String) : List (String × Record) → Option Record
  | [] => none
  | (k', v) :: rest => if k' = k then some v else dictGet k rest

/-- del self.data[key] guarded by a membership test: removes the entry
with that key if present, no-op otherwise. -/
def dictDelete (k : String) : List (String × Record) → List (String × Record)
  | [] => []
  | (k', v) :: rest => if k' = k then rest else (k', v) :: dictDelete k rest

/-- AddressBook.add_record: stores the record under its normalized
name.  Total — always succeeds, last write wins. -/
def AddressBook.add_record (book : List (String × Record)) (r : Record) : List (String × Record) :=
  dictInsert (pyNormalize r.name) r book

/-- AddressBook.find: lookup under the normalized name. -/
def AddressBook.find (book : List (String × Record)) (name : String) : Option Record :=
  dictGet (pyNormalize name) book

/-- AddressBook.delete: removal under the normalized name. -/
def AddressBook.delete (book : List (String × Record)) (name : String) : List (String × Record) :=
  dictDelete (pyNormalize name) book

/-- This year's (or, if already past, next year's) occurrence of the
stored birthday's month/day: lines 171-173 of src/main.py.  Either
date() constructor call can raise (e.g. Feb 29 against a non-leap
year), which propagates. -/
def occurrence (now b : PyDate) : Except String PyDate :=
  match mkDate now.year b.month b.day with
  | .error e => .error e
  | .ok c =>
    if PyDate.lt c now then mkDate (now.year + 1) b.month b.day else .ok c

/-- The weekend adjustment of lines 175-180: Saturday shifts the
celebration 2 days forward, Sunday 1 day; weekdays are unchanged. -/
def shiftWeekend (c : PyDate) : Except String PyDate :=
  if weekday c == 5 then addDaysChecked c 2
  else if weekday c == 6 then addDaysChecked c 1
  else .ok c

/-- AddressBook.get_upcoming_birthdays, with the reference date made
explicit (the code reads datetime.today()).  Records without a stored
birthday are skipped; for the rest the unshifted occurrence is
computed, the weekend-adjusted date derived, and the record reported
(name with the adjusted date rendered %Y-%m-%d) iff the day difference
of the unshifted occurrence from the reference date lies in [0, 7].
Any date-construction error aborts the whole call, as an uncaught
exception does. -/
def get_upcoming_birthdays : List (String × Record) → PyDate → Except String (List (String × String))
  | [], _ => .ok []
  | (n, r) :: rest, now =>
    match r.birthday with
    | none => get_upcoming_birthdays rest now
    | some b =>
      match occurrence now b with
      | .error e => .error e
      | .ok c =>
        match shiftWeekend c with
        | .error e => .error e
        | .ok adj =>
          match get_upcoming_birthdays rest now with
          | .error e => .error e
          | .ok tail =>
            if 0 ≤ dateDiff c now ∧ dateDiff c now ≤ 7
            then .ok ((n, fmtYMD adj) :: tail)
            else .ok tail

theorem weekday_monday_20240513 : weekday ⟨2024, 5, 13⟩ = 0 := by decide

theorem weekday_saturday_20240511 : weekday ⟨2024, 5, 11⟩ = 5 := by decide

theorem weekday_sunday_20240512 : weekday ⟨2024, 5, 12⟩ = 6 := by decide

theorem weekday_day_one : weekday ⟨1, 1, 1⟩ = 0 := by decide

/-- C3: for every string of exactly 10 decimal digits, Phone
construction succeeds and the constructed field renders back to the
same string; for every other string, construction fails with the
validation error. -/
theorem phone_validation_spec (s : String) :
    if s.length = 10 ∧ ∀ c ∈ s.data, c.isDigit = true
    then Phone.validate s = Except.ok s ∧ fieldStr (some s) = s
    else Phone.validate s = Except.error "The telephone number must contain exactly 10 digits" := by
  have hlen : s.length = s.data.length := rfl
  by_cases h : s.length = 10 ∧ ∀ c ∈ s.data, c.isDigit = true
  · rw [if_pos h]
    refine ⟨?_, rfl⟩
    have hg : (s.data.length == 10 && s.data.all fun c => c.isDigit) = true := by
      rw [Bool.and_eq_true]
      exact ⟨by rw [beq_iff_eq, ← hlen]; exact h.1, List.all_eq_true.mpr h.2⟩
    unfold Phone.validate
    rw [hg]
    rfl
  · rw [if_neg h]
    cases hb : (s.data.length == 10 && s.data.all fun c => c.isDigit) with
    | false =>
      unfold Phone.validate
      rw [hb]
      rfl
    | true =>
      exfalso
      apply h
      rw [Bool.and_eq_true] at hb
      obtain ⟨h1, h2⟩ := hb
      exact ⟨by rw [hlen]; exact beq_iff_eq.mp h1, fun c hc => List.all_eq_true.mp h2 c hc⟩

/-- C7: editing a phone whose old value matches no stored phone returns
the not-found result (False) and leaves the record — in particular its
phone list, with its length, order and values — unchanged. -/
theorem edit_phone_missing_unchanged (r : Record) (old new : String)
    (h : ∀ p ∈ r.phones, p ≠ old) :
    Record.edit_phone r old new = Except.ok (false, r) := by
  have hidx : r.phones.findIdx? (fun p => p == old) = none := by
    rw [List.findIdx?_eq_none_iff]
    intro p hp
    simp [h p hp]
  simp [Record.edit_phone, hidx]

/-- Witness for edit_phone_missing_unchanged at a concrete record. -/
theorem edit_phone_missing_unchanged_instance :
    Record.edit_phone ⟨"Bob", ["0123456789"], none⟩ "9999999999" "1111111111" =
      Except.ok (false, ⟨"Bob", ["0123456789"], none⟩) :=
  edit_phone_missing_unchanged ⟨"Bob", ["0123456789"], none⟩ "9999999999" "1111111111"
    (by decide)

/-- C8 counterexample: the Name field performs no validation, so a
Record constructed with the empty name succeeds (no ValidationError)
and the empty-named record is observable — it can even be stored in
the directory under the empty key. -/
theorem empty_name_accepted_counterexample :
    (Record.make "").name = "" ∧
      AddressBook.add_record [] (Record.make "") = [("", Record.make "")] :=
  ⟨rfl, rfl⟩

/-- C8 amended: Record construction performs no validation on the
name: it succeeds for every string, the empty string included, storing
the name as given with an empty phone list and no birthday. -/
theorem record_make_no_name_validation (s : String) :
    (Record.make s).name = s ∧ (Record.make s).phones = [] ∧
      (Record.make s).birthday = none :=
  ⟨rfl, rfl, rfl⟩

/-- C9: a directory holding a February 29 birthday makes
get_upcoming_birthdays raise while constructing the occurrence date
(date(now.year, 2, 29) with a non-leap reference year) instead of
returning a result list. -/
theorem feb29_occurrence_error :
    get_upcoming_birthdays [("kim", ⟨"Kim", [], some ⟨2020, 2, 29⟩⟩)] ⟨2025, 1, 1⟩ =
      Except.error "day is out of range for month" := by
  rfl

theorem toNat_ofNat_small (k : Nat) (h : k < 55296) : (Char.ofNat k).toNat = k := by
  have hv : Nat.isValidChar k := Or.inl h
  unfold Char.ofNat
  rw [dif_pos hv]
  unfold Char.ofNatAux Char.toNat
  simp [UInt32.toNat]

theorem lowerChar_lowerChar (c : Char) : lowerChar (lowerChar c) = lowerChar c := by
  unfold lowerChar
  by_cases h : 65 ≤ c.toNat ∧ c.toNat ≤ 90
  · rw [if_pos h]
    have ht : (Char.ofNat (c.toNat + 32)).toNat = c.toNat + 32 :=
      toNat_ofNat_small _ (by omega)
    rw [if_neg (by rw [ht]; omega)]
  · rw [if_neg h, if_neg h]

theorem pySpace_of_upper_range (c : Char) (h : 65 ≤ c.toNat) : pySpace c = false := by
  unfold pySpace
  have hne : ∀ d : Char, d.toNat < 65 → (c == d) = false := by
    intro d hd
    rw [beq_eq_false_iff_ne]
    intro hcd
    rw [hcd] at h
    omega
  rw [hne ' ' (by decide), hne '\t' (by decide), hne '\n' (by decide),
    hne '\x0b' (by decide), hne '\x0c' (by decide), hne '\r' (by decide)]
  rfl

theorem pySpace_lowerChar (c : Char) : pySpace (lowerChar c) = pySpace c := by
  unfold lowerChar
  by_cases h : 65 ≤ c.toNat ∧ c.toNat ≤ 90
  · rw [if_pos h]
    have ht : (Char.ofNat (c.toNat + 32)).toNat = c.toNat + 32 :=
      toNat_ofNat_small _ (by omega)
    rw [pySpace_of_upper_range _ (by rw [ht]; omega), pySpace_of_upper_range _ (by omega)]
  · rw [if_neg h]

theorem dropWhile_head_not (p : Char → Bool) (l : List Char) (c : Char)
    (hc : (l.dropWhile p).head? = some c) : p c = false := by
  induction l with
  | nil => simp [List.dropWhile] at hc
  | cons a t ih =>
    by_cases h : p a
    · rw [List.dropWhile_cons_of_pos h] at hc
      exact ih hc
    · rw [List.dropWhile_cons_of_neg h] at hc
      simp only [List.head?_cons, Option.some.injEq] at hc
      rw [← hc]
      exact Bool.eq_false_iff.mpr h

theorem dropWhile_of_head_not (p : Char → Bool) (l : List Char)
    (h : ∀ c, l.head? = some c → p c = false) : l.dropWhile p = l := by
  cases l with
  | nil => rfl
  | cons a t =>
    have := h a rfl
    rw [List.dropWhile_cons_of_neg (by rw [this]; exact Bool.false_ne_true)]

theorem dropWhile_self (p : Char → Bool) (l : List Char) :
    (l.dropWhile p).dropWhile p = l.dropWhile p :=
  dropWhile_of_head_not p _ (fun c hc => dropWhile_head_not p l c hc)

theorem dropWhile_exists_prepend (p : Char → Bool) (l : List Char) :
    ∃ t, t ++ l.dropWhile p = l := by
  induction l with
  | nil => exact ⟨[], rfl⟩
  | cons a t ih =>
    by_cases h : p a
    · obtain ⟨u, hu⟩ := ih
      exact ⟨a :: u, by rw [List.dropWhile_cons_of_pos h, List.cons_append, hu]⟩
    · exact ⟨[], by rw [List.dropWhile_cons_of_neg h, List.nil_append]⟩

theorem dropTrail_exists_append (p : Char → Bool) (l : List Char) :
    ∃ t, dropTrail p l ++ t = l := by
  obtain ⟨u, hu⟩ := dropWhile_exists_prepend p l.reverse
  refine ⟨u.reverse, ?_⟩
  have := congrArg List.reverse hu
  rw [List.reverse_append, List.reverse_reverse] at this
  exact this

theorem dropTrail_head_not (p : Char → Bool) (l : List Char)
    (h : ∀ c, l.head? = some c → p c = false) :
    ∀ c, (dropTrail p l).head? = some c → p c = false := by
  intro c hc
  obtain ⟨t, ht⟩ := dropTrail_exists_append p l
  cases hd : dropTrail p l with
  | nil => rw [hd] at hc; simp at hc
  | cons x xs =>
    rw [hd] at hc
    simp only [List.head?_cons, Option.some.injEq] at hc
    rw [hd] at ht
    apply h
    rw [← ht, List.cons_append, List.head?_cons, hc]

theorem dropTrail_self (p : Char → Bool) (l : List Char) :
    dropTrail p (dropTrail p l) = dropTrail p l := by
  unfold dropTrail
  rw [List.reverse_reverse, dropWhile_self]

theorem pyStrip_self (l : List Char) : pyStrip (pyStrip l) = pyStrip l := by
  unfold pyStrip
  rw [dropWhile_of_head_not pySpace _
    (dropTrail_head_not pySpace _ (fun c hc => dropWhile_head_not pySpace l c hc)),
    dropTrail_self]

theorem dropWhile_pyLower (l : List Char) :
    List.dropWhile pySpace (List.map lowerChar l) =
      List.map lowerChar (List.dropWhile pySpace l) := by
  induction l with
  | nil => rfl
  | cons a t ih =>
    by_cases h : pySpace a
    · rw [List.map_cons, List.dropWhile_cons_of_pos (by rw [pySpace_lowerChar]; exact h),
        List.dropWhile_cons_of_pos h, ih]
    · rw [List.map_cons,
        List.dropWhile_cons_of_neg (by rw [pySpace_lowerChar]; exact h),
        List.dropWhile_cons_of_neg h, List.map_cons]

theorem dropTrail_pyLower (l : List Char) :
    dropTrail pySpace (List.map lowerChar l) =
      List.map lowerChar (dropTrail pySpace l) := by
  unfold dropTrail
  rw [← List.map_reverse, dropWhile_pyLower, List.map_reverse]

theorem pyStrip_pyLower (l : List Char) :
    pyStrip (pyLower l) = pyLower (pyStrip l) := by
  unfold pyStrip pyLower
  rw [dropWhile_pyLower, dropTrail_pyLower]

theorem pyLower_pyLower (l : List Char) : pyLower (pyLower l) = pyLower l := by
  unfold pyLower
  rw [List.map_map]
  exact List.map_congr_left (fun a _ => lowerChar_lowerChar a)

theorem pyNormalize_idem (s : String) :
    pyNormalize (pyNormalize s) = pyNormalize s := by
  show (⟨pyLower (pyStrip (pyLower (pyStrip s.data)))⟩ : String) = ⟨pyLower (pyStrip s.data)⟩
  rw [pyStrip_pyLower, pyLower_pyLower, pyStrip_self]

theorem mem_dictInsert (k : String) (v : Record) (book : List (String × Record))
    (q : String × Record) (hq : q ∈ dictInsert k v book) : q = (k, v) ∨ q ∈ book := by
  induction book with
  | nil =>
    simp only [dictInsert, List.mem_singleton] at hq
    exact Or.inl hq
  | cons e rest ih =>
    obtain ⟨k', v'⟩ := e
    by_cases h : k' = k
    · rw [dictInsert, if_pos h] at hq
      rcases List.mem_cons.mp hq with h1 | h1
      · exact Or.inl h1
      · exact Or.inr (List.mem_cons_of_mem _ h1)
    · rw [dictInsert, if_neg h] at hq
      rcases List.mem_cons.mp hq with h1 | h1
      · exact Or.inr (h1 ▸ List.mem_cons_self _ _)
      · rcases ih h1 with h2 | h2
        · exact Or.inl h2
        · exact Or.inr (List.mem_cons_of_mem _ h2)

theorem mem_dictDelete (k : String) (book : List (String × Record))
    (q : String × Record) (hq : q ∈ dictDelete k book) : q ∈ book := by
  induction book with
  | nil => simp [dictDelete] at hq
  | cons e rest ih =>
    obtain ⟨k', v'⟩ := e
    by_cases h : k' = k
    · rw [dictDelete, if_pos h] at hq
      exact List.mem_cons_of_mem _ hq
    · rw [dictDelete, if_neg h] at hq
      rcases List.mem_cons.mp hq with h1 | h1
      · exact h1 ▸ List.mem_cons_self _ _
      · exact List.mem_cons_of_mem _ (ih h1)

theorem dictGet_dictInsert_self (k : String) (v : Record) (book : List (String × Record)) :
    dictGet k (dictInsert k v book) = some v := by
  induction book with
  | nil => simp [dictInsert, dictGet]
  | cons e rest ih =>
    obtain ⟨k', v'⟩ := e
    by_cases h : k' = k
    · rw [dictInsert, if_pos h, dictGet, if_pos rfl]
    · rw [dictInsert, if_neg h, dictGet, if_neg h, ih]

theorem mem_keys_dictInsert_self (k : String) (v : Record) (book : List (String × Record)) :
    k ∈ (dictInsert k v book).map Prod.fst := by
  induction book with
  | nil => simp [dictInsert]
  | cons e rest ih =>
    obtain ⟨k', v'⟩ := e
    by_cases h : k' = k
    · rw [dictInsert, if_pos h]
      simp
    · rw [dictInsert, if_neg h, List.map_cons]
      exact List.mem_cons_of_mem _ ih

theorem mem_keys_dictInsert (k a : String) (v : Record) (book : List (String × Record))
    (ha : a ∈ (dictInsert k v book).map Prod.fst) :
    a = k ∨ a ∈ book.map Prod.fst := by
  obtain ⟨q, hq, hqa⟩ := List.mem_map.mp ha
  rcases mem_dictInsert k v book q hq with h | h
  · exact Or.inl (by rw [← hqa, h])
  · exact Or.inr (hqa ▸ List.mem_map_of_mem Prod.fst h)

theorem nodup_keys_dictInsert (k : String) (v : Record) (book : List (String × Record))
    (h : (book.map Prod.fst).Nodup) : ((dictInsert k v book).map Prod.fst).Nodup := by
  induction book with
  | nil => simp [dictInsert]
  | cons e rest ih =>
    obtain ⟨k', v'⟩ := e
    rw [List.map_cons, List.nodup_cons] at h
    by_cases hk : k' = k
    · rw [dictInsert, if_pos hk, List.map_cons, List.nodup_cons]
      exact ⟨hk ▸ h.1, h.2⟩
    · rw [dictInsert, if_neg hk, List.map_cons, List.nodup_cons]
      refine ⟨?_, ih h.2⟩
      intro hmem
      rcases mem_keys_dictInsert k k' v rest hmem with h1 | h1
      · exact hk h1
      · exact h.1 h1

theorem length_dictInsert_mem (k : String) (v : Record) (book : List (String × Record))
    (h : k ∈ book.map Prod.fst) : (dictInsert k v book).length = book.length := by
  induction book with
  | nil => simp at h
  | cons e rest ih =>
    obtain ⟨k', v'⟩ := e
    by_cases hk : k' = k
    · rw [dictInsert, if_pos hk, List.length_cons, List.length_cons]
    · rw [dictInsert, if_neg hk, List.length_cons, List.length_cons]
      rw [List.map_cons, List.mem_cons] at h
      rcases h with h1 | h1
      · exact absurd h1 (fun hh => hk hh.symm)
      · rw [ih h1]

/-- C6: records whose names normalize to the same key overwrite each
other: after adding r1 and then r2 (same normalized name), the
directory resolves that name to r2, holds exactly one record under the
key, and its size did not grow — addRecord never fails. -/
theorem add_record_overwrites (book : List (String × Record)) (r1 r2 : Record)
    (hnd : (book.map Prod.fst).Nodup)
    (hsame : pyNormalize r2.name = pyNormalize r1.name) :
    AddressBook.find (AddressBook.add_record (AddressBook.add_record book r1) r2) r1.name =
        some r2 ∧
    ((AddressBook.add_record (AddressBook.add_record book r1) r2).map Prod.fst).count
        (pyNormalize r1.name) = 1 ∧
    (AddressBook.add_record (AddressBook.add_record book r1) r2).length =
        (AddressBook.add_record book r1).length := by
  unfold AddressBook.add_record AddressBook.find
  rw [hsame]
  refine ⟨dictGet_dictInsert_self _ _ _, ?_, ?_⟩
  · exact List.count_eq_one_of_mem
      (nodup_keys_dictInsert _ _ _ (nodup_keys_dictInsert _ _ _ hnd))
      (mem_keys_dictInsert_self _ _ _)
  · exact length_dictInsert_mem _ _ _ (mem_keys_dictInsert_self _ _ _)

/-- Witness for add_record_overwrites: adding "Alice" and then
"  alice " to an empty directory leaves one record, found under the
original name and equal to the second record. -/
theorem add_record_overwrites_instance :
    AddressBook.find
        (AddressBook.add_record (AddressBook.add_record [] (Record.make "Alice"))
          (Record.make "  alice ")) "Alice" = some (Record.make "  alice ") ∧
    ((AddressBook.add_record (AddressBook.add_record [] (Record.make "Alice"))
        (Record.make "  alice ")).map Prod.fst).count (pyNormalize "Alice") = 1 ∧
    (AddressBook.add_record (AddressBook.add_record [] (Record.make "Alice"))
        (Record.make "  alice ")).length =
      (AddressBook.add_record [] (Record.make "Alice")).length :=
  add_record_overwrites [] (Record.make "Alice") (Record.make "  alice ")
    (by decide) (by decide)

/-- C10: stored keys are fixed points of normalization, the invariant
is preserved by add_record and delete, and find/delete applied to any
two whitespace/case variants of a name address the same entry. -/
theorem normalized_key_invariant (book : List (String × Record)) (r : Record)
    (n v w : String)
    (hinv : ∀ q ∈ book, pyNormalize q.1 = q.1)
    (hvar : pyNormalize v = pyNormalize w) :
    (∀ q ∈ AddressBook.add_record book r, pyNormalize q.1 = q.1) ∧
    (∀ q ∈ AddressBook.delete book n, pyNormalize q.1 = q.1) ∧
    AddressBook.find book v = AddressBook.find book w ∧
    AddressBook.delete book v = AddressBook.delete book w := by
  refine ⟨?_, ?_, ?_, ?_⟩
  · intro q hq
    rcases mem_dictInsert (pyNormalize r.name) r book q hq with h | h
    · rw [h]
      exact pyNormalize_idem r.name
    · exact hinv q h
  · intro q hq
    exact hinv q (mem_dictDelete (pyNormalize n) book q hq)
  · unfold AddressBook.find
    rw [hvar]
  · unfold AddressBook.delete
    rw [hvar]

/-- Witness for normalized_key_invariant at a concrete directory and a
pair of name variants. -/
theorem normalized_key_invariant_instance :
    (∀ q ∈ AddressBook.add_record [("alice", Record.make "Alice")] (Record.make " Bob "),
      pyNormalize q.1 = q.1) ∧
    (∀ q ∈ AddressBook.delete [("alice", Record.make "Alice")] "nobody",
      pyNormalize q.1 = q.1) ∧
    AddressBook.find [("alice", Record.make "Alice")] "  ALICE " =
      AddressBook.find [("alice", Record.make "Alice")] "alice" ∧
    AddressBook.delete [("alice", Record.make "Alice")] "  ALICE " =
      AddressBook.delete [("alice", Record.make "Alice")] "alice" :=
  normalized_key_invariant [("alice", Record.make "Alice")] (Record.make " Bob ")
    "nobody" "  ALICE " "alice" (by decide) (by decide)

theorem isDigit_toNat (c : Char) (h : c.isDigit = true) : 48 ≤ c.toNat ∧ c.toNat ≤ 57 := by
  simp only [Char.isDigit, Bool.and_eq_true, decide_eq_true_eq, ge_iff_le] at h
  obtain ⟨h1, h2⟩ := h
  rw [UInt32.le_def, BitVec.le_def] at h1 h2
  exact ⟨h1, h2⟩

theorem toNat_digitChar (n : Nat) (h : n ≤ 9) : (digitChar n).toNat = 48 + n := by
  unfold digitChar
  exact toNat_ofNat_small _ (by omega)

theorem digitChar_isDigit (n : Nat) (h : n ≤ 9) : (digitChar n).isDigit = true := by
  have ht := toNat_digitChar n h
  simp only [Char.isDigit, Bool.and_eq_true, decide_eq_true_eq, ge_iff_le]
  constructor
  · rw [UInt32.le_def, BitVec.le_def]
    have e1 : (48 : UInt32).toBitVec.toNat = 48 := rfl
    have e2 : (digitChar n).val.toBitVec.toNat = (digitChar n).toNat := rfl
    rw [e1, e2, ht]
    omega
  · rw [UInt32.le_def, BitVec.le_def]
    have e1 : (57 : UInt32).toBitVec.toNat = 57 := rfl
    have e2 : (digitChar n).val.toBitVec.toNat = (digitChar n).toNat := rfl
    rw [e1, e2, ht]
    omega

theorem takeDigits_digits (l : List Char) : ∀ c ∈ (takeDigits l).1, c.isDigit = true := by
  induction l with
  | nil => intro c hc; simp [takeDigits] at hc
  | cons a t ih =>
    intro c hc
    by_cases h : a.isDigit
    · rw [takeDigits, if_pos h] at hc
      rcases List.mem_cons.mp hc with h1 | h1
      · rw [h1]; exact h
      · exact ih c h1
    · rw [takeDigits, if_neg h] at hc
      simp at hc

theorem natVal_foldl_lt (cs : List Char) (h : ∀ c ∈ cs, c.isDigit = true) :
    ∀ a, List.foldl (fun a c => 10 * a + (c.toNat - 48)) a cs < (a + 1) * 10 ^ cs.length := by
  induction cs with
  | nil => intro a; simp
  | cons c t ih =>
    intro a
    rw [List.foldl_cons]
    have hc := isDigit_toNat c (h c (List.mem_cons_self c t))
    have hstep := ih (fun x hx => h x (List.mem_cons_of_mem c hx)) (10 * a + (c.toNat - 48))
    calc List.foldl (fun a c => 10 * a + (c.toNat - 48)) (10 * a + (c.toNat - 48)) t
        < (10 * a + (c.toNat - 48) + 1) * 10 ^ t.length := hstep
      _ ≤ ((a + 1) * 10) * 10 ^ t.length :=
          Nat.mul_le_mul_right _ (by omega)
      _ = (a + 1) * 10 ^ (c :: t).length := by
          rw [List.length_cons, pow_succ]
          ring

theorem natVal_lt (cs : List Char) (h : ∀ c ∈ cs, c.isDigit = true) :
    natVal cs < 10 ^ cs.length := by
  have := natVal_foldl_lt cs h 0
  simpa [natVal] using this

theorem natVal_pad2 (n : Nat) (h : n < 100) : natVal (pad2 n) = n := by
  unfold natVal pad2
  rw [List.foldl_cons, List.foldl_cons, List.foldl_nil,
    toNat_digitChar (n / 10) (by omega), toNat_digitChar (n % 10) (by omega)]
  omega

theorem natVal_pad4 (n : Nat) (h : n < 10000) : natVal (pad4 n) = n := by
  unfold natVal pad4
  rw [List.foldl_cons, List.foldl_cons, List.foldl_cons, List.foldl_cons, List.foldl_nil,
    toNat_digitChar (n / 1000) (by omega), toNat_digitChar (n / 100 % 10) (by omega),
    toNat_digitChar (n / 10 % 10) (by omega), toNat_digitChar (n % 10) (by omega)]
  omega

theorem pad2_digits (n : Nat) (h : n < 100) : ∀ c ∈ pad2 n, c.isDigit = true := by
  intro c hc
  unfold pad2 at hc
  rcases List.mem_cons.mp hc with h1 | h1
  · rw [h1]; exact digitChar_isDigit _ (by omega)
  · rcases List.mem_cons.mp h1 with h2 | h2
    · rw [h2]; exact digitChar_isDigit _ (by omega)
    · simp at h2

theorem pad4_digits (n : Nat) (h : n < 10000) : ∀ c ∈ pad4 n, c.isDigit = true := by
  intro c hc
  unfold pad4 at hc
  rcases List.mem_cons.mp hc with h1 | h1
  · rw [h1]; exact digitChar_isDigit _ (by omega)
  rcases List.mem_cons.mp h1 with h2 | h2
  · rw [h2]; exact digitChar_isDigit _ (by omega)
  rcases List.mem_cons.mp h2 with h3 | h3
  · rw [h3]; exact digitChar_isDigit _ (by omega)
  rcases List.mem_cons.mp h3 with h4 | h4
  · rw [h4]; exact digitChar_isDigit _ (by omega)
  simp at h4

theorem takeDigits_append (ds r : List Char) (hds : ∀ c ∈ ds, c.isDigit = true)
    (hr : ∀ c, r.head? = some c → c.isDigit = false) : takeDigits (ds ++ r) = (ds, r) := by
  induction ds with
  | nil =>
    rw [List.nil_append]
    cases r with
    | nil => rfl
    | cons c t =>
      have := hr c rfl
      rw [takeDigits, if_neg (by rw [this]; exact Bool.false_ne_true)]
  | cons a t ih =>
    have ha := hds a (List.mem_cons_self a t)
    rw [List.cons_append, takeDigits, if_pos ha,
      ih (fun c hc => hds c (List.mem_cons_of_mem a hc))]

theorem daysInMonth_le (y m : Nat) : daysInMonth y m ≤ 31 := by
  unfold daysInMonth
  split
  · split <;> omega
  · split <;> omega

theorem mkDate_ok (y m d : Nat) (h1 : 1 ≤ y) (h2 : y ≤ 9999) (h3 : 1 ≤ m) (h4 : m ≤ 12)
    (h5 : 1 ≤ d) (h6 : d ≤ daysInMonth y m) : mkDate y m d = Except.ok ⟨y, m, d⟩ := by
  unfold mkDate
  rw [if_neg (not_not_intro ⟨h1, h2⟩), if_neg (not_not_intro ⟨h3, h4⟩),
    if_neg (not_not_intro ⟨h5, h6⟩)]

theorem mkDate_ok_inv (y m d : Nat) (dt : PyDate) (h : mkDate y m d = Except.ok dt) :
    1 ≤ y ∧ y ≤ 9999 ∧ 1 ≤ m ∧ m ≤ 12 ∧ 1 ≤ d ∧ d ≤ daysInMonth y m ∧ dt = ⟨y, m, d⟩ := by
  unfold mkDate at h
  split at h
  · simp at h
  · split at h
    · simp at h
    · split at h
      · simp at h
      · rename_i hy hm hd
        rw [not_not] at hy hm hd
        simp only [Except.ok.injEq] at h
        exact ⟨hy.1, hy.2, hm.1, hm.2, hd.1, hd.2, h.symm⟩

theorem flexMatch_inv (s : String) (d m y : Nat) (h : flexMatch s = some (d, m, y)) :
    1 ≤ d ∧ d ≤ 31 ∧ 1 ≤ m ∧ m ≤ 12 ∧ y ≤ 9999 := by
  simp only [flexMatch] at h
  split at h
  · split at h
    · split at h
      · rename_i r1 hr1 r2 hr2 hcond
        simp only [Option.some.injEq, Prod.mk.injEq] at h
        obtain ⟨hd, hm, hy⟩ := h
        have hylt : natVal (takeDigits r2).1 < 10 ^ (takeDigits r2).1.length :=
          natVal_lt _ (takeDigits_digits r2)
        rw [hcond.2.2.2.2.2.2.2.2.2] at hylt
        refine ⟨?_, ?_, ?_, ?_, ?_⟩
        · rw [← hd]; exact hcond.2.2.2.1
        · rw [← hd]; exact hcond.2.2.2.2.1
        · rw [← hm]; exact hcond.2.2.2.2.2.2.2.1
        · rw [← hm]; exact hcond.2.2.2.2.2.2.2.2.1
        · rw [← hy]; omega
      · simp at h
    · simp at h
  · simp at h

theorem takeDigits_all (ds : List Char) (h : ∀ c ∈ ds, c.isDigit = true) :
    takeDigits ds = (ds, []) := by
  induction ds with
  | nil => rfl
  | cons a t ih =>
    rw [takeDigits, if_pos (h a (List.mem_cons_self a t)),
      ih (fun c hc => h c (List.mem_cons_of_mem a hc))]

theorem flexMatch_fmtDMY (y m d : Nat) (h2 : y ≤ 9999) (h3 : 1 ≤ m) (h4 : m ≤ 12)
    (h5 : 1 ≤ d) (h6 : d ≤ 31) :
    flexMatch (fmtDMY ⟨y, m, d⟩) = some (d, m, y) := by
  have hdot : ∀ (r : List Char) (c : Char), ('.' :: r).head? = some c → c.isDigit = false := by
    intro r c hc
    simp only [List.head?_cons, Option.some.injEq] at hc
    rw [← hc]
    rfl
  have hdata : (fmtDMY ⟨y, m, d⟩).data = pad2 d ++ '.' :: (pad2 m ++ '.' :: pad4 y) := rfl
  have e1 : takeDigits (pad2 d ++ '.' :: (pad2 m ++ '.' :: pad4 y)) =
      (pad2 d, '.' :: (pad2 m ++ '.' :: pad4 y)) :=
    takeDigits_append _ _ (pad2_digits d (by omega)) (hdot _)
  have e2 : takeDigits (pad2 m ++ '.' :: pad4 y) = (pad2 m, '.' :: pad4 y) :=
    takeDigits_append _ _ (pad2_digits m (by omega)) (hdot _)
  have e3 : takeDigits (pad4 y) = (pad4 y, []) :=
    takeDigits_all _ (pad4_digits y (by omega))
  simp only [flexMatch, hdata, e1, e2, e3]
  rw [natVal_pad2 d (by omega), natVal_pad2 m (by omega), natVal_pad4 y (by omega)]
  split
  · rfl
  · rename_i hc
    exfalso
    apply hc
    have l1 : (pad2 d).length = 2 := rfl
    have l2 : (pad2 m).length = 2 := rfl
    have l3 : (pad4 y).length = 4 := rfl
    rw [l1, l2, l3]
    refine ⟨?_, ?_, ?_, ?_, ?_, ?_, ?_, ?_, ?_, ?_⟩ <;> trivial

theorem strictDMY_fmtDMY (y m d : Nat) (h2 : y ≤ 9999) (h6 : d ≤ 31) (h4 : m ≤ 12) :
    strictDMY (fmtDMY ⟨y, m, d⟩) = true := by
  show ((digitChar (d / 10)).isDigit && (digitChar (d % 10)).isDigit &&
      (digitChar (m / 10)).isDigit && (digitChar (m % 10)).isDigit &&
      (digitChar (y / 1000)).isDigit && (digitChar (y / 100 % 10)).isDigit &&
      (digitChar (y / 10 % 10)).isDigit && (digitChar (y % 10)).isDigit) = true
  rw [digitChar_isDigit (d / 10) (by omega), digitChar_isDigit (d % 10) (by omega),
    digitChar_isDigit (m / 10) (by omega), digitChar_isDigit (m % 10) (by omega),
    digitChar_isDigit (y / 1000) (by omega), digitChar_isDigit (y / 100 % 10) (by omega),
    digitChar_isDigit (y / 10 % 10) (by omega), digitChar_isDigit (y % 10) (by omega)]
  rfl

theorem birthday_roundtrip_parse (y m d : Nat) (h1 : 1 ≤ y) (h2 : y ≤ 9999) (h3 : 1 ≤ m)
    (h4 : m ≤ 12) (h5 : 1 ≤ d) (h6 : d ≤ daysInMonth y m) :
    Birthday.parse (fmtDMY ⟨y, m, d⟩) = Except.ok ⟨y, m, d⟩ := by
  have hd31 : d ≤ 31 := le_trans h6 (daysInMonth_le y m)
  simp only [Birthday.parse, flexMatch_fmtDMY y m d h2 h3 h4 h5 hd31,
    mkDate_ok y m d h1 h2 h3 h4 h5 h6]

/-- C4 counterexample: "5.03.2024" does not match the strict textual
pattern DD.MM.YYYY (the day has a single digit), yet Birthday
construction accepts it — strptime's %d field matches one or two
digits.  So acceptance is not equivalent to matching DD.MM.YYYY. -/
theorem birthday_pattern_flexible_counterexample :
    Birthday.parse "5.03.2024" = Except.ok ⟨2024, 3, 5⟩ ∧
      strictDMY "5.03.2024" = false := by
  constructor
  · rfl
  · decide

/-- C4 amended: Birthday construction succeeds exactly when the input
is day-dot-month-dot-year with day and month of one or two digits
(values 1..31 and 1..12), a year of exactly four digits, and the
values denote a real calendar date (year at least 1, day at most the
month's length, leap years accounted); every other input fails with
the ValueError "Invalid date format. Use DD.MM.YYYY". -/
theorem birthday_parse_amended (s : String) :
    (∃ d m y dt, flexMatch s = some (d, m, y) ∧ 1 ≤ y ∧ d ≤ daysInMonth y m ∧
      Birthday.parse s = Except.ok dt ∧ dt = ⟨y, m, d⟩) ∨
    (Birthday.parse s = Except.error "Invalid date format. Use DD.MM.YYYY" ∧
      ¬ ∃ d m y, flexMatch s = some (d, m, y) ∧ 1 ≤ y ∧ d ≤ daysInMonth y m) := by
  cases hf : flexMatch s with
  | none =>
    right
    constructor
    · simp [Birthday.parse, hf]
    · rintro ⟨d, m, y, hsome, _, _⟩
      exact Option.noConfusion hsome
  | some t =>
    obtain ⟨d, m, y⟩ := t
    obtain ⟨hd1, hd31, hm1, hm12, hy9999⟩ := flexMatch_inv s d m y hf
    by_cases hok : 1 ≤ y ∧ d ≤ daysInMonth y m
    · left
      refine ⟨d, m, y, ⟨y, m, d⟩, rfl, hok.1, hok.2, ?_, rfl⟩
      simp [Birthday.parse, hf, mkDate_ok y m d hok.1 hy9999 hm1 hm12 hd1 hok.2]
    · right
      have hmk : ∀ dt, mkDate y m d ≠ Except.ok dt := by
        intro dt hdt
        obtain ⟨a1, _, _, _, _, a6, _⟩ := mkDate_ok_inv y m d dt hdt
        exact hok ⟨a1, a6⟩
      constructor
      · cases hmk' : mkDate y m d with
        | ok dt => exact absurd hmk' (hmk dt)
        | error e => simp [Birthday.parse, hf, hmk']
      · rintro ⟨d', m', y', hsome, hy', hd'⟩
        simp only [Option.some.injEq, Prod.mk.injEq] at hsome
        obtain ⟨e1, e2, e3⟩ := hsome
        rw [← e3] at hy'
        rw [← e1, ← e2, ← e3] at hd'
        exact hok ⟨hy', hd'⟩

/-- C5 counterexample: "13.05.2024" is a valid DD.MM.YYYY string and
Birthday construction accepts it, but the constructed field's direct
string rendering (Field.__str__, i.e. str of the stored date) is the
ISO form "2024-05-13", not the original DD.MM.YYYY string. -/
theorem birthday_render_iso_counterexample :
    Birthday.parse "13.05.2024" = Except.ok ⟨2024, 5, 13⟩ ∧
    birthdayFieldStr (some ⟨2024, 5, 13⟩) = "2024-05-13" ∧
    ("2024-05-13" : String) ≠ "13.05.2024" := by
  refine ⟨by rfl, by decide, by decide⟩

/-- C5 amended: for every real calendar date, its strict DD.MM.YYYY
rendering (which ranges over exactly the valid DD.MM.YYYY strings)
parses back to the same stored date — the round trip through the
DD.MM.YYYY formatting used by record display and show-birthday is the
identity — while the field's direct string rendering gives the ISO
form YYYY-MM-DD instead, and an unset field renders as the empty
string. -/
theorem birthday_roundtrip_amended (y m d : Nat) (h1 : 1 ≤ y) (h2 : y ≤ 9999) (h3 : 1 ≤ m)
    (h4 : m ≤ 12) (h5 : 1 ≤ d) (h6 : d ≤ daysInMonth y m) :
    strictDMY (fmtDMY ⟨y, m, d⟩) = true ∧
    Birthday.parse (fmtDMY ⟨y, m, d⟩) = Except.ok ⟨y, m, d⟩ ∧
    birthdayFieldStr (some ⟨y, m, d⟩) = isoStr ⟨y, m, d⟩ ∧
    birthdayFieldStr none = "" :=
  ⟨strictDMY_fmtDMY y m d h2 (le_trans h6 (daysInMonth_le y m)) h4,
   birthday_roundtrip_parse y m d h1 h2 h3 h4 h5 h6, rfl, rfl⟩

/-- Witness for birthday_roundtrip_amended at 13.05.2024. -/
theorem birthday_roundtrip_amended_instance :
    strictDMY (fmtDMY ⟨2024, 5, 13⟩) = true ∧
    Birthday.parse (fmtDMY ⟨2024, 5, 13⟩) = Except.ok ⟨2024, 5, 13⟩ ∧
    birthdayFieldStr (some ⟨2024, 5, 13⟩) = isoStr ⟨2024, 5, 13⟩ ∧
    birthdayFieldStr none = "" :=
  birthday_roundtrip_amended 2024 5 13 (by decide) (by decide) (by decide) (by decide)
    (by decide) (by decide)

theorem shiftWeekend_spec (c adj : PyDate) (h : shiftWeekend c = Except.ok adj) :
    (weekday c = 5 ∧ adj = addDays c 2) ∨ (weekday c = 6 ∧ adj = addDays c 1) ∨
    (weekday c ≠ 5 ∧ weekday c ≠ 6 ∧ adj = c) := by
  unfold shiftWeekend at h
  split at h
  · rename_i h5
    left
    refine ⟨beq_iff_eq.mp h5, ?_⟩
    simp only [addDaysChecked] at h
    split at h
    · injection h with h'
      exact h'.symm
    · exact Except.noConfusion h
  · split at h
    · rename_i h5 h6
      right; left
      refine ⟨beq_iff_eq.mp h6, ?_⟩
      simp only [addDaysChecked] at h
      split at h
      · injection h with h'
        exact h'.symm
      · exact Except.noConfusion h
    · rename_i h5 h6
      right; right
      refine ⟨?_, ?_, ?_⟩
      · intro hh
        exact h5 (by rw [hh]; rfl)
      · intro hh
        exact h6 (by rw [hh]; rfl)
      · injection h with h'
        exact h'.symm

theorem upcoming_names (book : List (String × Record)) (now : PyDate)
    (res : List (String × String)) (h : get_upcoming_birthdays book now = Except.ok res) :
    ∀ q ∈ res, q.1 ∈ book.map Prod.fst := by
  induction book generalizing res with
  | nil =>
    simp only [get_upcoming_birthdays, Except.ok.injEq] at h
    intro q hq
    rw [← h] at hq
    simp at hq
  | cons e rest ih =>
    obtain ⟨n, r⟩ := e
    cases hb : r.birthday with
    | none =>
      simp only [get_upcoming_birthdays, hb] at h
      intro q hq
      rw [List.map_cons]
      exact List.mem_cons_of_mem _ (ih res h q hq)
    | some b =>
      simp only [get_upcoming_birthdays, hb] at h
      cases hc : occurrence now b with
      | error e' =>
        simp only [hc] at h
        exact Except.noConfusion h
      | ok c =>
        simp only [hc] at h
        cases hs : shiftWeekend c with
        | error e' =>
          simp only [hs] at h
          exact Except.noConfusion h
        | ok adj =>
          simp only [hs] at h
          cases ht : get_upcoming_birthdays rest now with
          | error e' =>
            simp only [ht] at h
            exact Except.noConfusion h
          | ok tail =>
            simp only [ht] at h
            intro q hq
            rw [List.map_cons]
            by_cases hw : 0 ≤ dateDiff c now ∧ dateDiff c now ≤ 7
            · rw [if_pos hw] at h
              injection h with h'
              rw [← h'] at hq
              rcases List.mem_cons.mp hq with h1 | h1
              · rw [h1]
                exact List.mem_cons_self _ _
              · exact List.mem_cons_of_mem _ (ih tail ht q h1)
            · rw [if_neg hw] at h
              injection h with h'
              rw [← h'] at hq
              exact List.mem_cons_of_mem _ (ih tail ht q hq)

theorem upcoming_mem (book : List (String × Record)) (now : PyDate)
    (res : List (String × String)) (h : get_upcoming_birthdays book now = Except.ok res)
    (hnd : (book.map Prod.fst).Nodup) (n : String) (r : Record) (hm : (n, r) ∈ book)
    (b : PyDate) (hb : r.birthday = some b) (c : PyDate)
    (hc : occurrence now b = Except.ok c) :
    ∃ adj, shiftWeekend c = Except.ok adj ∧
      ∀ s, ((n, s) ∈ res ↔
        (s = fmtYMD adj ∧ 0 ≤ dateDiff c now ∧ dateDiff c now ≤ 7)) := by
  induction book generalizing res with
  | nil => simp at hm
  | cons e rest ih =>
    obtain ⟨n', r'⟩ := e
    rw [List.map_cons, List.nodup_cons] at hnd
    rcases List.mem_cons.mp hm with hhead | htail
    · injection hhead with e1 e2
      subst e1
      subst e2
      simp only [get_upcoming_birthdays, hb, hc] at h
      cases hs : shiftWeekend c with
      | error e' =>
        simp only [hs] at h
        exact Except.noConfusion h
      | ok adj =>
        simp only [hs] at h
        cases ht : get_upcoming_birthdays rest now with
        | error e' =>
          simp only [ht] at h
          exact Except.noConfusion h
        | ok tail =>
          simp only [ht] at h
          refine ⟨adj, rfl, ?_⟩
          intro s
          by_cases hw : 0 ≤ dateDiff c now ∧ dateDiff c now ≤ 7
          · rw [if_pos hw] at h
            injection h with h'
            rw [← h']
            constructor
            · intro hmem
              rcases List.mem_cons.mp hmem with h1 | h1
              · have h2 := (Prod.mk.injEq n s n (fmtYMD adj)).mp h1
                exact ⟨h2.2, hw⟩
              · exact absurd (upcoming_names rest now tail ht (n, s) h1) hnd.1
            · rintro ⟨rfl, _⟩
              exact List.mem_cons_self _ _
          · rw [if_neg hw] at h
            injection h with h'
            rw [← h']
            constructor
            · intro hmem
              exact absurd (upcoming_names rest now tail ht (n, s) hmem) hnd.1
            · rintro ⟨_, hw1, hw2⟩
              exact absurd ⟨hw1, hw2⟩ hw
    · have hmem_n : n ∈ List.map Prod.fst rest := List.mem_map_of_mem Prod.fst htail
      have hn_ne : n ≠ n' := fun hh => hnd.1 (hh ▸ hmem_n)
      cases hb' : r'.birthday with
      | none =>
        simp only [get_upcoming_birthdays, hb'] at h
        exact ih res h hnd.2 htail
      | some b' =>
        simp only [get_upcoming_birthdays, hb'] at h
        cases hc' : occurrence now b' with
        | error e' =>
          simp only [hc'] at h
          exact Except.noConfusion h
        | ok c' =>
          simp only [hc'] at h
          cases hs' : shiftWeekend c' with
          | error e' =>
            simp only [hs'] at h
            exact Except.noConfusion h
          | ok adj' =>
            simp only [hs'] at h
            cases ht : get_upcoming_birthdays rest now with
            | error e' =>
              simp only [ht] at h
              exact Except.noConfusion h
            | ok tail =>
              simp only [ht] at h
              obtain ⟨adj, hadj, hiff⟩ := ih tail ht hnd.2 htail
              refine ⟨adj, hadj, ?_⟩
              intro s
              by_cases hw : 0 ≤ dateDiff c' now ∧ dateDiff c' now ≤ 7
              · rw [if_pos hw] at h
                injection h with h'
                rw [← h', List.mem_cons]
                constructor
                · rintro (h1 | h1)
                  · exact absurd (congrArg Prod.fst h1) hn_ne
                  · exact (hiff s).mp h1
                · intro hrhs
                  exact Or.inr ((hiff s).mpr hrhs)
              · rw [if_neg hw] at h
                injection h with h'
                rw [← h']
                exact hiff s

/-- C1: when get_upcoming_birthdays returns a result list, a contact
with a stored birthday is included if and only if the day difference
of the unshifted occurrence (this year's month/day, or next year's if
this year's has passed) from the reference date lies in the inclusive
window [0, 7].  The test never involves the weekend-shifted date, so a
birthday exactly 8 days out is excluded and ones exactly 0 or 7 days
out are included.  Directory states have one record per key, hence the
no-duplicate hypothesis on keys. -/
theorem upcoming_includes_iff_window (book : List (String × Record)) (now : PyDate)
    (res : List (String × String)) (h : get_upcoming_birthdays book now = Except.ok res)
    (hnd : (book.map Prod.fst).Nodup) (n : String) (r : Record) (hm : (n, r) ∈ book)
    (b : PyDate) (hb : r.birthday = some b) (c : PyDate)
    (hc : occurrence now b = Except.ok c) :
    (∃ s, (n, s) ∈ res) ↔ (0 ≤ dateDiff c now ∧ dateDiff c now ≤ 7) := by
  obtain ⟨adj, hadj, hiff⟩ := upcoming_mem book now res h hnd n r hm b hb c hc
  constructor
  · rintro ⟨s, hs⟩
    exact ((hiff s).mp hs).2
  · intro hw
    exact ⟨fmtYMD adj, (hiff (fmtYMD adj)).mpr ⟨rfl, hw⟩⟩

/-- Witness for upcoming_includes_iff_window: reference Friday
2024-05-10 and a birthday occurring Monday 2024-05-13 (difference 3):
the contact is reported. -/
theorem upcoming_includes_iff_window_instance :
    (∃ s, ("john", s) ∈ [("john", "2024-05-13")]) ↔
      (0 ≤ dateDiff ⟨2024, 5, 13⟩ ⟨2024, 5, 10⟩ ∧
        dateDiff ⟨2024, 5, 13⟩ ⟨2024, 5, 10⟩ ≤ 7) :=
  upcoming_includes_iff_window [("john", ⟨"John", [], some ⟨2000, 5, 13⟩⟩)] ⟨2024, 5, 10⟩
    [("john", "2024-05-13")] (by rfl) (by decide) "john" ⟨"John", [], some ⟨2000, 5, 13⟩⟩
    (by decide) ⟨2000, 5, 13⟩ rfl ⟨2024, 5, 13⟩ (by rfl)

/-- C2: every reported congratulation date is the unshifted occurrence
pushed forward 2 days when the occurrence is a Saturday, 1 day when it
is a Sunday, and kept unchanged on a weekday, rendered %Y-%m-%d. -/
theorem congratulation_weekend_shift (book : List (String × Record)) (now : PyDate)
    (res : List (String × String)) (h : get_upcoming_birthdays book now = Except.ok res)
    (hnd : (book.map Prod.fst).Nodup) (n : String) (r : Record) (hm : (n, r) ∈ book)
    (b : PyDate) (hb : r.birthday = some b) (c : PyDate)
    (hc : occurrence now b = Except.ok c) (s : String) (hs : (n, s) ∈ res) :
    ∃ adj, shiftWeekend c = Except.ok adj ∧ s = fmtYMD adj ∧
      ((weekday c = 5 ∧ adj = addDays c 2) ∨ (weekday c = 6 ∧ adj = addDays c 1) ∨
        (weekday c ≠ 5 ∧ weekday c ≠ 6 ∧ adj = c)) := by
  obtain ⟨adj, hadj, hiff⟩ := upcoming_mem book now res h hnd n r hm b hb c hc
  exact ⟨adj, hadj, ((hiff s).mp hs).1, shiftWeekend_spec c adj hadj⟩

/-- Witness for congratulation_weekend_shift: a birthday occurring
Saturday 2024-05-11 is reported with the Monday date 2024-05-13. -/
theorem congratulation_weekend_shift_instance :
    ∃ adj, shiftWeekend ⟨2024, 5, 11⟩ = Except.ok adj ∧ "2024-05-13" = fmtYMD adj ∧
      ((weekday ⟨2024, 5, 11⟩ = 5 ∧ adj = addDays ⟨2024, 5, 11⟩ 2) ∨
        (weekday ⟨2024, 5, 11⟩ = 6 ∧ adj = addDays ⟨2024, 5, 11⟩ 1) ∨
        (weekday ⟨2024, 5, 11⟩ ≠ 5 ∧ weekday ⟨2024, 5, 11⟩ ≠ 6 ∧ adj = ⟨2024, 5, 11⟩)) :=
  congratulation_weekend_shift [("sam", ⟨"Sam", [], some ⟨1990, 5, 11⟩⟩)] ⟨2024, 5, 10⟩
    [("sam", "2024-05-13")] (by rfl) (by decide) "sam" ⟨"Sam", [], some ⟨1990, 5, 11⟩⟩
    (by decide) ⟨1990, 5, 11⟩ rfl ⟨2024, 5, 11⟩ (by rfl) "2024-05-13" (by decide)
